import Mathlib

/-!
Verification of the token-diff engine of grammarscan-live.

The program under study is `getDiffSegments` in `src/components/Sidebar.tsx`:

* tokenization: `original.split(/(\s+)/).filter(Boolean)` — the string is cut
  into maximal runs of whitespace / non-whitespace characters and empty pieces
  are dropped;
* a `while (i < wordsO.length || j < wordsC.length)` loop that walks both token
  arrays left to right, classifying each step as an exact match, a substitution
  (both current tokens have non-empty `trim()`), a deletion (only the original
  token has content), an addition (only the corrected token has content), or a
  whitespace sync step;
* every step pushes React `<span>` nodes (modelled below by `Seg`: a key, a
  `className` and a text) onto `originalSegments` and/or `correctedSegments`.

The loop body is embedded by `walkFuel`, a fuel-indexed step function that
returns the ordered trace of emitted operations (`Op`); the two segment lists
are the per-side projections of that trace, exactly mirroring which branch
pushes to which array in the source.
-/

namespace GrammarScan

/-- Whitespace class of the JavaScript regex `\s` (and of `String.prototype.trim`):
TAB..CR, space, NBSP, U+1680, U+2000–U+200A, U+2028, U+2029, U+202F, U+205F,
U+3000, U+FEFF. -/
def jsWhitespace (ch : Char) : Bool :=
  decide (ch.toNat ∈ ([9, 10, 11, 12, 13, 32, 160, 5760, 8232, 8233,
      8239, 8287, 12288, 65279] : List Nat))
    || decide (8192 ≤ ch.toNat ∧ ch.toNat ≤ 8202)

/-- Embeds `s.split(/(\s+)/).filter(Boolean)` on the character list: the string
is decomposed into maximal runs of characters agreeing on `jsWhitespace`
(`split` with a captured separator keeps the whitespace runs; `filter(Boolean)`
drops the empty pieces that arise at the ends, so exactly the maximal nonempty
runs remain). -/
def tokenizeCore : List Char → List (List Char)
  | [] => []
  | ch :: rest =>
    match tokenizeCore rest with
    | [] => [[ch]]
    | [] :: ts => [ch] :: ts
    | (d :: tl) :: ts =>
      if jsWhitespace ch = jsWhitespace d then (ch :: d :: tl) :: ts
      else [ch] :: (d :: tl) :: ts

/-- Tokenization of a string: `original.split(/(\s+)/).filter(Boolean)`. -/
def tokenize (s : String) : List String :=
  (tokenizeCore s.data).map (fun l => String.mk l)

/-- Truthiness of `t.trim()` for a present token `t`: the trimmed string is
non-empty exactly when some character of `t` is not JS whitespace. -/
def hasContent (t : String) : Bool :=
  t.data.any (fun ch => !jsWhitespace ch)

/-- The test `o && /^\s+$/.test(o)` of the whitespace-sync branch: `o` is a
non-empty string all of whose characters are JS whitespace. -/
def isWsRun (t : String) : Bool :=
  !t.data.isEmpty && t.data.all jsWhitespace

/-- One emitted operation of the diff loop, in push order.  The `Nat` fields
are the values of the loop counters `i` (original side) and `j` (corrected
side) at the moment of the push; they feed the React keys. -/
inductive Op where
  | matchTok : Nat → Nat → String → Op
  | sub : Nat → Nat → String → String → Op
  | del : Nat → String → Op
  | ins : Nat → String → Op
  | wsO : Nat → String → Op
  | wsC : Nat → String → Op
deriving DecidableEq

def Op.isMatchTok : Op → Bool
  | .matchTok _ _ _ => true
  | _ => false

def Op.isSub : Op → Bool
  | .sub _ _ _ _ => true
  | _ => false

def Op.isDel : Op → Bool
  | .del _ _ => true
  | _ => false

def Op.isIns : Op → Bool
  | .ins _ _ => true
  | _ => false

def Op.isWsO : Op → Bool
  | .wsO _ _ => true
  | _ => false

def Op.isWsC : Op → Bool
  | .wsC _ _ => true
  | _ => false

/-- The `while (i < wordsO.length || j < wordsC.length)` loop of
`getDiffSegments`, with the two arrays represented by their unread suffixes
`os`, `cs` and the counters `i`, `j` carried along.  Branches, in source
order, for current tokens `o = wordsO[i]`, `c = wordsC[j]` (a missing token is
`undefined`, i.e. an empty suffix):

1. `o === c` — exact match, push a shared node, advance both;
2. `oTrim && cTrim` — substitution, push to both sides, advance both;
3. `oTrim` — deletion, push to the original side, advance `i`;
4. `cTrim` — addition, push to the corrected side, advance `j`;
5. whitespace sync — push and advance each side whose token is a non-empty
   whitespace run; a side with an empty-string token would neither push nor
   advance (unreachable from `tokenize`, whose tokens are non-empty).

The first argument is fuel: the source loop has no built-in bound, so the
embedding returns `none` when the fuel runs out before the loop condition
fails (termination is proved separately). -/
def walkFuel : Nat → List String → List String → Nat → Nat → Option (List Op)
  | 0, _, _, _, _ => none
  | n + 1, os, cs, i, j =>
    match os, cs with
    | [], [] => some []
    | o :: os1, c :: cs1 =>
      if o = c then
        (walkFuel n os1 cs1 (i + 1) (j + 1)).map (fun r => Op.matchTok i j o :: r)
      else if hasContent o && hasContent c then
        (walkFuel n os1 cs1 (i + 1) (j + 1)).map (fun r => Op.sub i j o c :: r)
      else if hasContent o then
        (walkFuel n os1 (c :: cs1) (i + 1) j).map (fun r => Op.del i o :: r)
      else if hasContent c then
        (walkFuel n (o :: os1) cs1 i (j + 1)).map (fun r => Op.ins j c :: r)
      else if isWsRun o then
        if isWsRun c then
          (walkFuel n os1 cs1 (i + 1) (j + 1)).map
            (fun r => Op.wsO i o :: Op.wsC j c :: r)
        else
          (walkFuel n os1 (c :: cs1) (i + 1) j).map (fun r => Op.wsO i o :: r)
      else if isWsRun c then
        (walkFuel n (o :: os1) cs1 i (j + 1)).map (fun r => Op.wsC j c :: r)
      else
        walkFuel n (o :: os1) (c :: cs1) i j
    | o :: os1, [] =>
      if hasContent o then
        (walkFuel n os1 [] (i + 1) j).map (fun r => Op.del i o :: r)
      else if isWsRun o then
        (walkFuel n os1 [] (i + 1) j).map (fun r => Op.wsO i o :: r)
      else
        walkFuel n (o :: os1) [] i j
    | [], c :: cs1 =>
      if hasContent c then
        (walkFuel n [] cs1 i (j + 1)).map (fun r => Op.ins j c :: r)
      else if isWsRun c then
        (walkFuel n [] cs1 i (j + 1)).map (fun r => Op.wsC j c :: r)
      else
        walkFuel n [] (c :: cs1) i j

/-- The operation trace of `getDiffSegments original corrected`.  The fuel
`|tokensO| + |tokensC| + 1` is enough because every iteration on tokenizer
output consumes at least one token (proved below); `none` would mean the loop
failed to terminate within that budget. -/
def diffOps (original corrected : String) : Option (List Op) :=
  let os := tokenize original
  let cs := tokenize corrected
  walkFuel (os.length + cs.length + 1) os cs 0 0

/-- A rendered `<span>` node: its React `key`, its `className` and its text. -/
structure Seg where
  key : String
  cls : String
  text : String
deriving DecidableEq

/-- The `className` of a matched span. -/
def matchClass : String := "text-slate-400"

/-- The `className` of an original-side error span (substitution or deletion). -/
def errClass : String :=
  "text-red-400/80 font-medium underline decoration-red-500/30 underline-offset-[6px] decoration-1"

/-- The `className` of a corrected-side fix span (substitution or addition). -/
def fixClass : String := "text-[#00f5b4] font-semibold"

/-- The node an operation pushes onto `originalSegments`, if any, with the key
written in the source (`match-${i}-${j}`, `orig-err-${i}`, `orig-del-${i}`,
`ws-o-${i}`). -/
def origNode : Op → Option Seg
  | .matchTok i j t =>
      some ⟨"match-" ++ Nat.repr i ++ "-" ++ Nat.repr j, matchClass, t⟩
  | .sub i _ o _ => some ⟨"orig-err-" ++ Nat.repr i, errClass, o⟩
  | .del i t => some ⟨"orig-del-" ++ Nat.repr i, errClass, t⟩
  | .ins _ _ => none
  | .wsO i t => some ⟨"ws-o-" ++ Nat.repr i, "", t⟩
  | .wsC _ _ => none

/-- The node an operation pushes onto `correctedSegments`, if any, with the key
written in the source (`match-${i}-${j}`, `corr-fix-${j}`, `corr-add-${j}`,
`ws-c-${j}`).  A match pushes the very same node as on the original side. -/
def corrNode : Op → Option Seg
  | .matchTok i j t =>
      some ⟨"match-" ++ Nat.repr i ++ "-" ++ Nat.repr j, matchClass, t⟩
  | .sub _ j _ c => some ⟨"corr-fix-" ++ Nat.repr j, fixClass, c⟩
  | .del _ _ => none
  | .ins j t => some ⟨"corr-add-" ++ Nat.repr j, fixClass, t⟩
  | .wsO _ _ => none
  | .wsC j t => some ⟨"ws-c-" ++ Nat.repr j, "", t⟩

/-- The pair `(originalSegments, correctedSegments)` returned by
`getDiffSegments`. -/
def getDiffSegments (original corrected : String) : List Seg × List Seg :=
  let ops := (diffOps original corrected).getD []
  (ops.filterMap origNode, ops.filterMap corrNode)

/-! ### Tokenizer lemmas -/

theorem tokenizeCore_join (l : List Char) : (tokenizeCore l).flatten = l := by
  induction l with
  | nil => rfl
  | cons ch rest ih =>
    rw [tokenizeCore]
    rcases h : tokenizeCore rest with _ | ⟨t, ts⟩
    · rw [h] at ih; simpa using ih.symm
    · rcases t with _ | ⟨d, tl⟩
      · rw [h] at ih; simp at ih ⊢; exact ih
      · rw [h] at ih
        by_cases hk : jsWhitespace ch = jsWhitespace d
        · simp [hk] at ih ⊢; exact ih
        · simp [hk] at ih ⊢; exact ih

theorem tokenizeCore_ne_nil (l : List Char) : ∀ t ∈ tokenizeCore l, t ≠ [] := by
  induction l with
  | nil => intro t ht; simp [tokenizeCore] at ht
  | cons ch rest ih =>
    intro t ht
    rw [tokenizeCore] at ht
    rcases h : tokenizeCore rest with _ | ⟨u, ts⟩
    · rw [h] at ht; simp at ht; simp [ht]
    · rcases u with _ | ⟨d, tl⟩
      · rw [h] at ht; simp at ht
        rcases ht with ht | ht
        · simp [ht]
        · exact ih t (by rw [h]; exact List.mem_cons_of_mem _ ht)
      · rw [h] at ht
        by_cases hk : jsWhitespace ch = jsWhitespace d <;> simp [hk] at ht
        · rcases ht with ht | ht
          · simp [ht]
          · exact ih t (by rw [h]; exact List.mem_cons_of_mem _ ht)
        · rcases ht with ht | ht | ht
          · simp [ht]
          · exact ih t (by rw [h, ht]; exact List.mem_cons_self _ _)
          · exact ih t (by rw [h]; exact List.mem_cons_of_mem _ ht)

theorem join_data (l : List String) (s : String) :
    (l.foldl (fun r t => r ++ t) s).data = s.data ++ (l.map String.data).flatten := by
  induction l generalizing s with
  | nil => simp
  | cons t l ih => simp [ih, List.append_assoc]

theorem string_join_data (l : List String) :
    (String.join l).data = (l.map String.data).flatten := by
  simp [String.join, join_data l ""]

theorem tokenize_join (s : String) : String.join (tokenize s) = s := by
  apply String.ext
  rw [string_join_data, tokenize, List.map_map]
  have : (String.data ∘ fun l => String.mk l) = id := rfl
  rw [this, List.map_id]
  exact tokenizeCore_join s.data

theorem tokenize_ne_empty (s : String) : ∀ t ∈ tokenize s, t ≠ "" := by
  intro t ht
  rw [tokenize] at ht
  rcases List.mem_map.mp ht with ⟨l, hl, rfl⟩
  intro hcontra
  exact tokenizeCore_ne_nil s.data l hl (congrArg String.data hcontra)

/-! ### Reconstruction: each side of the trace spells out its input tokens -/

theorem walk_origTexts :
    ∀ (n : Nat) (os cs : List String) (i j : Nat) (ops : List Op),
    walkFuel n os cs i j = some ops →
    (ops.filterMap origNode).map Seg.text = os := by
  intro n
  induction n with
  | zero => intro os cs i j ops h; simp [walkFuel] at h
  | succ n ih =>
    intro os cs i j ops h
    rcases os with _ | ⟨o, os1⟩ <;> rcases cs with _ | ⟨c, cs1⟩
    · simp only [walkFuel, Option.some.injEq] at h
      subst h
      simp
    · simp only [walkFuel] at h
      split at h
      · rcases Option.map_eq_some'.mp h with ⟨r, hr, rfl⟩
        simpa [origNode] using ih _ _ _ _ _ hr
      · split at h
        · rcases Option.map_eq_some'.mp h with ⟨r, hr, rfl⟩
          simpa [origNode] using ih _ _ _ _ _ hr
        · exact ih _ _ _ _ _ h
    · simp only [walkFuel] at h
      split at h
      · rcases Option.map_eq_some'.mp h with ⟨r, hr, rfl⟩
        simpa [origNode] using ih _ _ _ _ _ hr
      · split at h
        · rcases Option.map_eq_some'.mp h with ⟨r, hr, rfl⟩
          simpa [origNode] using ih _ _ _ _ _ hr
        · exact ih _ _ _ _ _ h
    · simp only [walkFuel] at h
      split at h
      · rcases Option.map_eq_some'.mp h with ⟨r, hr, rfl⟩
        simpa [origNode] using ih _ _ _ _ _ hr
      · split at h
        · rcases Option.map_eq_some'.mp h with ⟨r, hr, rfl⟩
          simpa [origNode] using ih _ _ _ _ _ hr
        · split at h
          · rcases Option.map_eq_some'.mp h with ⟨r, hr, rfl⟩
            simpa [origNode] using ih _ _ _ _ _ hr
          · split at h
            · rcases Option.map_eq_some'.mp h with ⟨r, hr, rfl⟩
              simpa [origNode] using ih _ _ _ _ _ hr
            · split at h
              · split at h
                · rcases Option.map_eq_some'.mp h with ⟨r, hr, rfl⟩
                  simpa [origNode] using ih _ _ _ _ _ hr
                · rcases Option.map_eq_some'.mp h with ⟨r, hr, rfl⟩
                  simpa [origNode] using ih _ _ _ _ _ hr
              · split at h
                · rcases Option.map_eq_some'.mp h with ⟨r, hr, rfl⟩
                  simpa [origNode] using ih _ _ _ _ _ hr
                · exact ih _ _ _ _ _ h

theorem walk_corrTexts :
    ∀ (n : Nat) (os cs : List String) (i j : Nat) (ops : List Op),
    walkFuel n os cs i j = some ops →
    (ops.filterMap corrNode).map Seg.text = cs := by
  intro n
  induction n with
  | zero => intro os cs i j ops h; simp [walkFuel] at h
  | succ n ih =>
    intro os cs i j ops h
    rcases os with _ | ⟨o, os1⟩ <;> rcases cs with _ | ⟨c, cs1⟩
    · simp only [walkFuel, Option.some.injEq] at h
      subst h
      simp
    · simp only [walkFuel] at h
      split at h
      · rcases Option.map_eq_some'.mp h with ⟨r, hr, rfl⟩
        simpa [corrNode] using ih _ _ _ _ _ hr
      · split at h
        · rcases Option.map_eq_some'.mp h with ⟨r, hr, rfl⟩
          simpa [corrNode] using ih _ _ _ _ _ hr
        · exact ih _ _ _ _ _ h
    · simp only [walkFuel] at h
      split at h
      · rcases Option.map_eq_some'.mp h with ⟨r, hr, rfl⟩
        simpa [corrNode] using ih _ _ _ _ _ hr
      · split at h
        · rcases Option.map_eq_some'.mp h with ⟨r, hr, rfl⟩
          simpa [corrNode] using ih _ _ _ _ _ hr
        · exact ih _ _ _ _ _ h
    · simp only [walkFuel] at h
      split at h
      next hoc =>
        rcases Option.map_eq_some'.mp h with ⟨r, hr, rfl⟩
        subst hoc
        simpa [corrNode] using ih _ _ _ _ _ hr
      · split at h
        · rcases Option.map_eq_some'.mp h with ⟨r, hr, rfl⟩
          simpa [corrNode] using ih _ _ _ _ _ hr
        · split at h
          · rcases Option.map_eq_some'.mp h with ⟨r, hr, rfl⟩
            simpa [corrNode] using ih _ _ _ _ _ hr
          · split at h
            · rcases Option.map_eq_some'.mp h with ⟨r, hr, rfl⟩
              simpa [corrNode] using ih _ _ _ _ _ hr
            · split at h
              · split at h
                · rcases Option.map_eq_some'.mp h with ⟨r, hr, rfl⟩
                  simpa [corrNode] using ih _ _ _ _ _ hr
                · rcases Option.map_eq_some'.mp h with ⟨r, hr, rfl⟩
                  simpa [corrNode] using ih _ _ _ _ _ hr
              · split at h
                · rcases Option.map_eq_some'.mp h with ⟨r, hr, rfl⟩
                  simpa [corrNode] using ih _ _ _ _ _ hr
                · exact ih _ _ _ _ _ h

/-! ### Termination: on non-empty tokens, every iteration consumes a token -/

theorem isWsRun_of_not_hasContent {t : String} (hne : t ≠ "")
    (hc : hasContent t = false) : isWsRun t = true := by
  rw [hasContent] at hc
  rw [isWsRun]
  have hd : t.data ≠ [] := by
    intro hnil
    exact hne (String.ext hnil)
  simp only [List.any_eq_false, Bool.not_eq_true', Bool.not_eq_true] at hc
  simp only [Bool.and_eq_true, Bool.not_eq_true', List.isEmpty_eq_false,
    List.all_eq_true]
  exact ⟨hd, fun ch hch => by simpa using hc ch hch⟩

theorem walk_total :
    ∀ (n : Nat) (os cs : List String) (i j : Nat),
    (∀ t ∈ os, t ≠ "") → (∀ t ∈ cs, t ≠ "") → os.length + cs.length < n →
    (walkFuel n os cs i j).isSome = true := by
  intro n
  induction n with
  | zero => intro os cs i j _ _ hlen; omega
  | succ n ih =>
    intro os cs i j ho hc hlen
    rcases os with _ | ⟨o, os1⟩ <;> rcases cs with _ | ⟨c, cs1⟩
    · simp [walkFuel]
    · have hcne : c ≠ "" := hc c (List.mem_cons_self _ _)
      have hc1 : ∀ t ∈ cs1, t ≠ "" := fun t ht => hc t (List.mem_cons_of_mem _ ht)
      have hlen1 : (0 : Nat) + cs1.length < n := by simp at hlen ⊢; omega
      by_cases h1 : hasContent c = true
      · simp only [walkFuel, if_pos h1, Option.isSome_map']
        exact ih [] cs1 i (j + 1) (by simp) hc1 hlen1
      · have h2 : isWsRun c = true :=
          isWsRun_of_not_hasContent hcne (by simpa using h1)
        simp only [walkFuel, if_neg h1, if_pos h2, Option.isSome_map']
        exact ih [] cs1 i (j + 1) (by simp) hc1 hlen1
    · have hone : o ≠ "" := ho o (List.mem_cons_self _ _)
      have ho1 : ∀ t ∈ os1, t ≠ "" := fun t ht => ho t (List.mem_cons_of_mem _ ht)
      have hlen1 : os1.length + (0 : Nat) < n := by simp at hlen ⊢; omega
      by_cases h1 : hasContent o = true
      · simp only [walkFuel, if_pos h1, Option.isSome_map']
        exact ih os1 [] (i + 1) j ho1 (by simp) hlen1
      · have h2 : isWsRun o = true :=
          isWsRun_of_not_hasContent hone (by simpa using h1)
        simp only [walkFuel, if_neg h1, if_pos h2, Option.isSome_map']
        exact ih os1 [] (i + 1) j ho1 (by simp) hlen1
    · have hone : o ≠ "" := ho o (List.mem_cons_self _ _)
      have hcne : c ≠ "" := hc c (List.mem_cons_self _ _)
      have ho1 : ∀ t ∈ os1, t ≠ "" := fun t ht => ho t (List.mem_cons_of_mem _ ht)
      have hc1 : ∀ t ∈ cs1, t ≠ "" := fun t ht => hc t (List.mem_cons_of_mem _ ht)
      have hl0 : os1.length + cs1.length < n := by simp at hlen ⊢; omega
      have hl1 : os1.length + (c :: cs1).length < n := by simp at hlen ⊢; omega
      have hl2 : (o :: os1).length + cs1.length < n := by simp at hlen ⊢; omega
      by_cases heq : o = c
      · simp only [walkFuel, if_pos heq, Option.isSome_map']
        exact ih os1 cs1 (i + 1) (j + 1) ho1 hc1 hl0
      · by_cases h1 : hasContent o = true <;> by_cases h2 : hasContent c = true
        · simp only [walkFuel, if_neg heq, h1, h2, Bool.and_self, if_true,
            Option.isSome_map']
          exact ih os1 cs1 (i + 1) (j + 1) ho1 hc1 hl0
        · have h2f : hasContent c = false := by simpa using h2
          simp only [walkFuel, if_neg heq, h1, h2f, Bool.and_false, Bool.false_eq_true,
            if_false, if_true, Option.isSome_map']
          exact ih os1 (c :: cs1) (i + 1) j ho1 hc hl1
        · have h1f : hasContent o = false := by simpa using h1
          simp only [walkFuel, if_neg heq, h1f, h2, Bool.false_and, Bool.false_eq_true,
            if_false, if_true, Option.isSome_map']
          exact ih (o :: os1) cs1 i (j + 1) ho hc1 hl2
        · have h1f : hasContent o = false := by simpa using h1
          have h2f : hasContent c = false := by simpa using h2
          have hw1 : isWsRun o = true := isWsRun_of_not_hasContent hone h1f
          have hw2 : isWsRun c = true := isWsRun_of_not_hasContent hcne h2f
          simp only [walkFuel, if_neg heq, h1f, h2f, Bool.false_and, Bool.and_false,
            Bool.false_eq_true, if_false, hw1, hw2, if_true, Option.isSome_map']
          exact ih os1 cs1 (i + 1) (j + 1) ho1 hc1 hl0

/-- The diff trace is a terminating computation on every pair of inputs. -/
theorem diffOps_isSome (original corrected : String) :
    (diffOps original corrected).isSome = true := by
  rw [diffOps]
  exact walk_total _ _ _ 0 0 (tokenize_ne_empty original) (tokenize_ne_empty corrected)
    (by omega)

/-! ### Shape lemmas about the emitted trace -/

theorem walk_id :
    ∀ (n : Nat) (os : List String) (i j : Nat) (ops : List Op),
    walkFuel n os os i j = some ops → ops.all Op.isMatchTok = true := by
  intro n
  induction n with
  | zero => intro os i j ops h; simp [walkFuel] at h
  | succ n ih =>
    intro os i j ops h
    rcases os with _ | ⟨o, os1⟩
    · simp only [walkFuel, Option.some.injEq] at h
      subst h
      rfl
    · simp only [walkFuel, if_pos rfl] at h
      rcases Option.map_eq_some'.mp h with ⟨r, hr, rfl⟩
      simpa [Op.isMatchTok] using ih _ _ _ _ hr

theorem walk_emptyO :
    ∀ (n : Nat) (cs : List String) (i j : Nat) (ops : List Op),
    walkFuel n [] cs i j = some ops →
    ops.all (fun op => op.isIns || op.isWsC) = true := by
  intro n
  induction n with
  | zero => intro cs i j ops h; simp [walkFuel] at h
  | succ n ih =>
    intro cs i j ops h
    rcases cs with _ | ⟨c, cs1⟩
    · simp only [walkFuel, Option.some.injEq] at h
      subst h
      rfl
    · simp only [walkFuel] at h
      split at h
      · rcases Option.map_eq_some'.mp h with ⟨r, hr, rfl⟩
        simpa [Op.isIns] using ih _ _ _ _ hr
      · split at h
        · rcases Option.map_eq_some'.mp h with ⟨r, hr, rfl⟩
          simpa [Op.isWsC] using ih _ _ _ _ hr
        · exact ih _ _ _ _ h

theorem walk_emptyC :
    ∀ (n : Nat) (os : List String) (i j : Nat) (ops : List Op),
    walkFuel n os [] i j = some ops →
    ops.all (fun op => op.isDel || op.isWsO) = true := by
  intro n
  induction n with
  | zero => intro os i j ops h; simp [walkFuel] at h
  | succ n ih =>
    intro os i j ops h
    rcases os with _ | ⟨o, os1⟩
    · simp only [walkFuel, Option.some.injEq] at h
      subst h
      rfl
    · simp only [walkFuel] at h
      split at h
      · rcases Option.map_eq_some'.mp h with ⟨r, hr, rfl⟩
        simpa [Op.isDel] using ih _ _ _ _ hr
      · split at h
        · rcases Option.map_eq_some'.mp h with ⟨r, hr, rfl⟩
          simpa [Op.isWsO] using ih _ _ _ _ hr
        · exact ih _ _ _ _ h

/-- A substitution operation pairs two tokens that both have non-whitespace
content; every other operation satisfies this vacuously. -/
def subTokensOk : Op → Bool
  | .sub _ _ o c => hasContent o && hasContent c
  | _ => true

theorem walk_subOk :
    ∀ (n : Nat) (os cs : List String) (i j : Nat) (ops : List Op),
    walkFuel n os cs i j = some ops → ops.all subTokensOk = true := by
  intro n
  induction n with
  | zero => intro os cs i j ops h; simp [walkFuel] at h
  | succ n ih =>
    intro os cs i j ops h
    rcases os with _ | ⟨o, os1⟩ <;> rcases cs with _ | ⟨c, cs1⟩
    · simp only [walkFuel, Option.some.injEq] at h
      subst h
      rfl
    · simp only [walkFuel] at h
      split at h
      · rcases Option.map_eq_some'.mp h with ⟨r, hr, rfl⟩
        simpa [subTokensOk] using ih _ _ _ _ _ hr
      · split at h
        · rcases Option.map_eq_some'.mp h with ⟨r, hr, rfl⟩
          simpa [subTokensOk] using ih _ _ _ _ _ hr
        · exact ih _ _ _ _ _ h
    · simp only [walkFuel] at h
      split at h
      · rcases Option.map_eq_some'.mp h with ⟨r, hr, rfl⟩
        simpa [subTokensOk] using ih _ _ _ _ _ hr
      · split at h
        · rcases Option.map_eq_some'.mp h with ⟨r, hr, rfl⟩
          simpa [subTokensOk] using ih _ _ _ _ _ hr
        · exact ih _ _ _ _ _ h
    · simp only [walkFuel] at h
      split at h
      · rcases Option.map_eq_some'.mp h with ⟨r, hr, rfl⟩
        simpa [subTokensOk] using ih _ _ _ _ _ hr
      · split at h
        next hsub =>
          rcases Option.map_eq_some'.mp h with ⟨r, hr, rfl⟩
          simp only [List.all_cons, Bool.and_eq_true]
          exact ⟨by simpa [subTokensOk] using hsub, ih _ _ _ _ _ hr⟩
        · split at h
          · rcases Option.map_eq_some'.mp h with ⟨r, hr, rfl⟩
            simpa [subTokensOk] using ih _ _ _ _ _ hr
          · split at h
            · rcases Option.map_eq_some'.mp h with ⟨r, hr, rfl⟩
              simpa [subTokensOk] using ih _ _ _ _ _ hr
            · split at h
              · split at h
                · rcases Option.map_eq_some'.mp h with ⟨r, hr, rfl⟩
                  simpa [subTokensOk] using ih _ _ _ _ _ hr
                · rcases Option.map_eq_some'.mp h with ⟨r, hr, rfl⟩
                  simpa [subTokensOk] using ih _ _ _ _ _ hr
              · split at h
                · rcases Option.map_eq_some'.mp h with ⟨r, hr, rfl⟩
                  simpa [subTokensOk] using ih _ _ _ _ _ hr
                · exact ih _ _ _ _ _ h

/-- Checks that nowhere in the trace a Delete is immediately followed by an
Insert. -/
def noDelIns : List Op → Bool
  | a :: b :: r => !(a.isDel && b.isIns) && noDelIns (b :: r)
  | _ => true

theorem noDelIns_cons (a : Op) (l : List Op) :
    noDelIns (a :: l) = true ↔
    (∀ b, l.head? = some b → (a.isDel && b.isIns) = false) ∧ noDelIns l = true := by
  cases l with
  | nil => simp [noDelIns]
  | cons b r =>
    simp only [noDelIns, Bool.and_eq_true, Bool.not_eq_true', List.head?_cons]
    constructor
    · rintro ⟨h1, h2⟩
      exact ⟨fun b2 hb2 => by cases hb2; exact h1, h2⟩
    · rintro ⟨h1, h2⟩
      exact ⟨h1 b rfl, h2⟩

theorem walk_noDelIns :
    ∀ (n : Nat) (os cs : List String) (i j : Nat) (ops : List Op),
    walkFuel n os cs i j = some ops →
    noDelIns ops = true ∧
    ((∀ c, cs.head? = some c → hasContent c = false) →
      ∀ op, ops.head? = some op → op.isIns = false) := by
  intro n
  induction n with
  | zero => intro os cs i j ops h; simp [walkFuel] at h
  | succ n ih =>
    intro os cs i j ops h
    rcases os with _ | ⟨o, os1⟩ <;> rcases cs with _ | ⟨c, cs1⟩
    · simp only [walkFuel, Option.some.injEq] at h
      subst h
      exact ⟨rfl, fun _ op hop => by simp at hop⟩
    · simp only [walkFuel] at h
      split at h
      next hcc =>
        rcases Option.map_eq_some'.mp h with ⟨r, hr, rfl⟩
        obtain ⟨h1, _⟩ := ih _ _ _ _ _ hr
        constructor
        · rw [noDelIns_cons]
          exact ⟨fun b _ => by simp [Op.isDel], h1⟩
        · intro hsafe op hop
          exact absurd (hsafe c rfl) (by simp [hcc])
      · split at h
        · rcases Option.map_eq_some'.mp h with ⟨r, hr, rfl⟩
          obtain ⟨h1, _⟩ := ih _ _ _ _ _ hr
          constructor
          · rw [noDelIns_cons]
            exact ⟨fun b _ => by simp [Op.isDel], h1⟩
          · intro hsafe op hop
            simp only [List.head?_cons, Option.some.injEq] at hop
            subst hop
            rfl
        · exact ih _ _ _ _ _ h
    · simp only [walkFuel] at h
      split at h
      · rcases Option.map_eq_some'.mp h with ⟨r, hr, rfl⟩
        obtain ⟨h1, h2⟩ := ih _ _ _ _ _ hr
        constructor
        · rw [noDelIns_cons]
          refine ⟨fun b hb => ?_, h1⟩
          have hbi : b.isIns = false := h2 (by intro c hc; simp at hc) b hb
          simp [hbi]
        · intro _ op hop
          simp only [List.head?_cons, Option.some.injEq] at hop
          subst hop
          rfl
      · split at h
        · rcases Option.map_eq_some'.mp h with ⟨r, hr, rfl⟩
          obtain ⟨h1, _⟩ := ih _ _ _ _ _ hr
          constructor
          · rw [noDelIns_cons]
            exact ⟨fun b _ => by simp [Op.isDel], h1⟩
          · intro _ op hop
            simp only [List.head?_cons, Option.some.injEq] at hop
            subst hop
            rfl
        · exact ih _ _ _ _ _ h
    · simp only [walkFuel] at h
      split at h
      · rcases Option.map_eq_some'.mp h with ⟨r, hr, rfl⟩
        obtain ⟨h1, _⟩ := ih _ _ _ _ _ hr
        refine ⟨?_, fun _ op hop => ?_⟩
        · rw [noDelIns_cons]
          exact ⟨fun b _ => by simp [Op.isDel], h1⟩
        · simp only [List.head?_cons, Option.some.injEq] at hop
          subst hop
          rfl
      · split at h
        · rcases Option.map_eq_some'.mp h with ⟨r, hr, rfl⟩
          obtain ⟨h1, _⟩ := ih _ _ _ _ _ hr
          refine ⟨?_, fun _ op hop => ?_⟩
          · rw [noDelIns_cons]
            exact ⟨fun b _ => by simp [Op.isDel], h1⟩
          · simp only [List.head?_cons, Option.some.injEq] at hop
            subst hop
            rfl
        · split at h
          next hne hnsub hco =>
            rcases Option.map_eq_some'.mp h with ⟨r, hr, rfl⟩
            obtain ⟨h1, h2⟩ := ih _ _ _ _ _ hr
            have hcf : hasContent c = false := by
              simp [hco] at hnsub
              exact hnsub
            refine ⟨?_, fun _ op hop => ?_⟩
            · rw [noDelIns_cons]
              refine ⟨fun b hb => ?_, h1⟩
              have hbi : b.isIns = false := by
                refine h2 (fun c2 hc2 => ?_) b hb
                simp only [List.head?_cons, Option.some.injEq] at hc2
                subst hc2
                exact hcf
              simp [hbi]
            · simp only [List.head?_cons, Option.some.injEq] at hop
              subst hop
              rfl
          · split at h
            next hcc =>
              rcases Option.map_eq_some'.mp h with ⟨r, hr, rfl⟩
              obtain ⟨h1, _⟩ := ih _ _ _ _ _ hr
              refine ⟨?_, fun hsafe op hop => ?_⟩
              · rw [noDelIns_cons]
                exact ⟨fun b _ => by simp [Op.isDel], h1⟩
              · exact absurd (hsafe c rfl) (by simp [hcc])
            · split at h
              · split at h
                · rcases Option.map_eq_some'.mp h with ⟨r, hr, rfl⟩
                  obtain ⟨h1, _⟩ := ih _ _ _ _ _ hr
                  refine ⟨?_, fun _ op hop => ?_⟩
                  · rw [noDelIns_cons, noDelIns_cons]
                    exact ⟨fun b _ => by simp [Op.isDel],
                      fun b _ => by simp [Op.isDel], h1⟩
                  · simp only [List.head?_cons, Option.some.injEq] at hop
                    subst hop
                    rfl
                · rcases Option.map_eq_some'.mp h with ⟨r, hr, rfl⟩
                  obtain ⟨h1, _⟩ := ih _ _ _ _ _ hr
                  refine ⟨?_, fun _ op hop => ?_⟩
                  · rw [noDelIns_cons]
                    exact ⟨fun b _ => by simp [Op.isDel], h1⟩
                  · simp only [List.head?_cons, Option.some.injEq] at hop
                    subst hop
                    rfl
              · split at h
                · rcases Option.map_eq_some'.mp h with ⟨r, hr, rfl⟩
                  obtain ⟨h1, _⟩ := ih _ _ _ _ _ hr
                  refine ⟨?_, fun _ op hop => ?_⟩
                  · rw [noDelIns_cons]
                    exact ⟨fun b _ => by simp [Op.isDel], h1⟩
                  · simp only [List.head?_cons, Option.some.injEq] at hop
                    subst hop
                    rfl
                · exact ih _ _ _ _ _ h

/-! ### Key indices are strictly increasing on each side -/

/-- The original-side counter value recorded in an operation that pushes to
`originalSegments`. -/
def origI : Op → Option Nat
  | .matchTok i _ _ => some i
  | .sub i _ _ _ => some i
  | .del i _ => some i
  | .wsO i _ => some i
  | _ => none

/-- The corrected-side counter value recorded in an operation that pushes to
`correctedSegments`. -/
def corrJ : Op → Option Nat
  | .matchTok _ j _ => some j
  | .sub _ j _ _ => some j
  | .ins j _ => some j
  | .wsC j _ => some j
  | _ => none

theorem walk_origI :
    ∀ (n : Nat) (os cs : List String) (i j : Nat) (ops : List Op),
    walkFuel n os cs i j = some ops →
    (ops.filterMap origI).Pairwise (· < ·) ∧ ∀ k ∈ ops.filterMap origI, i ≤ k := by
  intro n
  induction n with
  | zero => intro os cs i j ops h; simp [walkFuel] at h
  | succ n ih =>
    intro os cs i j ops h
    have step : ∀ (os2 cs2 : List String) (j2 : Nat) (r : List Op),
        walkFuel n os2 cs2 (i + 1) j2 = some r →
        ((i :: r.filterMap origI).Pairwise (· < ·) ∧
          ∀ k ∈ i :: r.filterMap origI, i ≤ k) := by
      intro os2 cs2 j2 r hr
      obtain ⟨h1, h2⟩ := ih _ _ _ _ _ hr
      constructor
      · rw [List.pairwise_cons]
        exact ⟨fun k hk => by have := h2 k hk; omega, h1⟩
      · intro k hk
        rcases List.mem_cons.mp hk with rfl | hk
        · exact Nat.le_refl _
        · have := h2 k hk; omega
    rcases os with _ | ⟨o, os1⟩ <;> rcases cs with _ | ⟨c, cs1⟩
    · simp only [walkFuel, Option.some.injEq] at h
      subst h
      simp
    · simp only [walkFuel] at h
      split at h
      · rcases Option.map_eq_some'.mp h with ⟨r, hr, rfl⟩
        rw [List.filterMap_cons_none (show origI (Op.ins j c) = none from rfl)]
        exact ih _ _ _ _ _ hr
      · split at h
        · rcases Option.map_eq_some'.mp h with ⟨r, hr, rfl⟩
          rw [List.filterMap_cons_none (show origI (Op.wsC j c) = none from rfl)]
          exact ih _ _ _ _ _ hr
        · exact ih _ _ _ _ _ h
    · simp only [walkFuel] at h
      split at h
      · rcases Option.map_eq_some'.mp h with ⟨r, hr, rfl⟩
        rw [List.filterMap_cons_some (show origI (Op.del i o) = some i from rfl)]
        exact step _ _ _ r hr
      · split at h
        · rcases Option.map_eq_some'.mp h with ⟨r, hr, rfl⟩
          rw [List.filterMap_cons_some (show origI (Op.wsO i o) = some i from rfl)]
          exact step _ _ _ r hr
        · exact ih _ _ _ _ _ h
    · simp only [walkFuel] at h
      split at h
      · rcases Option.map_eq_some'.mp h with ⟨r, hr, rfl⟩
        rw [List.filterMap_cons_some (show origI (Op.matchTok i j o) = some i from rfl)]
        exact step _ _ _ r hr
      · split at h
        · rcases Option.map_eq_some'.mp h with ⟨r, hr, rfl⟩
          rw [List.filterMap_cons_some (show origI (Op.sub i j o c) = some i from rfl)]
          exact step _ _ _ r hr
        · split at h
          · rcases Option.map_eq_some'.mp h with ⟨r, hr, rfl⟩
            rw [List.filterMap_cons_some (show origI (Op.del i o) = some i from rfl)]
            exact step _ _ _ r hr
          · split at h
            · rcases Option.map_eq_some'.mp h with ⟨r, hr, rfl⟩
              rw [List.filterMap_cons_none (show origI (Op.ins j c) = none from rfl)]
              exact ih _ _ _ _ _ hr
            · split at h
              · split at h
                · rcases Option.map_eq_some'.mp h with ⟨r, hr, rfl⟩
                  rw [List.filterMap_cons_some
                      (show origI (Op.wsO i o) = some i from rfl),
                    List.filterMap_cons_none (show origI (Op.wsC j c) = none from rfl)]
                  exact step _ _ _ r hr
                · rcases Option.map_eq_some'.mp h with ⟨r, hr, rfl⟩
                  rw [List.filterMap_cons_some
                      (show origI (Op.wsO i o) = some i from rfl)]
                  exact step _ _ _ r hr
              · split at h
                · rcases Option.map_eq_some'.mp h with ⟨r, hr, rfl⟩
                  rw [List.filterMap_cons_none
                      (show origI (Op.wsC j c) = none from rfl)]
                  exact ih _ _ _ _ _ hr
                · exact ih _ _ _ _ _ h

theorem walk_corrJ :
    ∀ (n : Nat) (os cs : List String) (i j : Nat) (ops : List Op),
    walkFuel n os cs i j = some ops →
    (ops.filterMap corrJ).Pairwise (· < ·) ∧ ∀ k ∈ ops.filterMap corrJ, j ≤ k := by
  intro n
  induction n with
  | zero => intro os cs i j ops h; simp [walkFuel] at h
  | succ n ih =>
    intro os cs i j ops h
    have step : ∀ (os2 cs2 : List String) (i2 : Nat) (r : List Op),
        walkFuel n os2 cs2 i2 (j + 1) = some r →
        ((j :: r.filterMap corrJ).Pairwise (· < ·) ∧
          ∀ k ∈ j :: r.filterMap corrJ, j ≤ k) := by
      intro os2 cs2 i2 r hr
      obtain ⟨h1, h2⟩ := ih _ _ _ _ _ hr
      constructor
      · rw [List.pairwise_cons]
        exact ⟨fun k hk => by have := h2 k hk; omega, h1⟩
      · intro k hk
        rcases List.mem_cons.mp hk with rfl | hk
        · exact Nat.le_refl _
        · have := h2 k hk; omega
    rcases os with _ | ⟨o, os1⟩ <;> rcases cs with _ | ⟨c, cs1⟩
    · simp only [walkFuel, Option.some.injEq] at h
      subst h
      simp
    · simp only [walkFuel] at h
      split at h
      · rcases Option.map_eq_some'.mp h with ⟨r, hr, rfl⟩
        rw [List.filterMap_cons_some (show corrJ (Op.ins j c) = some j from rfl)]
        exact step _ _ _ r hr
      · split at h
        · rcases Option.map_eq_some'.mp h with ⟨r, hr, rfl⟩
          rw [List.filterMap_cons_some (show corrJ (Op.wsC j c) = some j from rfl)]
          exact step _ _ _ r hr
        · exact ih _ _ _ _ _ h
    · simp only [walkFuel] at h
      split at h
      · rcases Option.map_eq_some'.mp h with ⟨r, hr, rfl⟩
        rw [List.filterMap_cons_none (show corrJ (Op.del i o) = none from rfl)]
        exact ih _ _ _ _ _ hr
      · split at h
        · rcases Option.map_eq_some'.mp h with ⟨r, hr, rfl⟩
          rw [List.filterMap_cons_none (show corrJ (Op.wsO i o) = none from rfl)]
          exact ih _ _ _ _ _ hr
        · exact ih _ _ _ _ _ h
    · simp only [walkFuel] at h
      split at h
      · rcases Option.map_eq_some'.mp h with ⟨r, hr, rfl⟩
        rw [List.filterMap_cons_some (show corrJ (Op.matchTok i j o) = some j from rfl)]
        exact step _ _ _ r hr
      · split at h
        · rcases Option.map_eq_some'.mp h with ⟨r, hr, rfl⟩
          rw [List.filterMap_cons_some (show corrJ (Op.sub i j o c) = some j from rfl)]
          exact step _ _ _ r hr
        · split at h
          · rcases Option.map_eq_some'.mp h with ⟨r, hr, rfl⟩
            rw [List.filterMap_cons_none (show corrJ (Op.del i o) = none from rfl)]
            exact ih _ _ _ _ _ hr
          · split at h
            · rcases Option.map_eq_some'.mp h with ⟨r, hr, rfl⟩
              rw [List.filterMap_cons_some (show corrJ (Op.ins j c) = some j from rfl)]
              exact step _ _ _ r hr
            · split at h
              · split at h
                · rcases Option.map_eq_some'.mp h with ⟨r, hr, rfl⟩
                  rw [List.filterMap_cons_none
                      (show corrJ (Op.wsO i o) = none from rfl),
                    List.filterMap_cons_some
                      (show corrJ (Op.wsC j c) = some j from rfl)]
                  exact step _ _ _ r hr
                · rcases Option.map_eq_some'.mp h with ⟨r, hr, rfl⟩
                  rw [List.filterMap_cons_none
                      (show corrJ (Op.wsO i o) = none from rfl)]
                  exact ih _ _ _ _ _ hr
              · split at h
                · rcases Option.map_eq_some'.mp h with ⟨r, hr, rfl⟩
                  rw [List.filterMap_cons_some
                      (show corrJ (Op.wsC j c) = some j from rfl)]
                  exact step _ _ _ r hr
                · exact ih _ _ _ _ _ h

/-! ### Decimal key components: `Nat.repr` is injective and digit-only -/

/-- Decimal digit characters of `n`, most significant first; exactly the
character list underlying `Nat.repr n`. -/
def natDigits (n : Nat) : List Char :=
  if _h : n < 10 then [Nat.digitChar n]
  else natDigits (n / 10) ++ [Nat.digitChar (n % 10)]
decreasing_by exact Nat.div_lt_self (by omega) (by omega)

theorem natDigits_lt {n : Nat} (h : n < 10) : natDigits n = [Nat.digitChar n] := by
  rw [natDigits]
  simp [h]

theorem natDigits_ge {n : Nat} (h : ¬n < 10) :
    natDigits n = natDigits (n / 10) ++ [Nat.digitChar (n % 10)] := by
  conv_lhs => rw [natDigits]
  simp [h]

theorem toDigitsCore_eq :
    ∀ (f n : Nat) (ds : List Char), n < f →
    Nat.toDigitsCore 10 f n ds = natDigits n ++ ds := by
  intro f
  induction f with
  | zero => intro n ds h; omega
  | succ f ih =>
    intro n ds h
    by_cases h0 : n / 10 = 0
    · have hn : n < 10 := (Nat.div_eq_zero_iff (by norm_num)).mp h0
      simp only [Nat.toDigitsCore, h0, if_true]
      rw [natDigits_lt hn]
      simp [Nat.mod_eq_of_lt hn]
    · have hpos : 0 < n / 10 := Nat.pos_of_ne_zero h0
      have h10 : 10 ≤ n := by
        by_contra hcon
        exact h0 ((Nat.div_eq_zero_iff (by norm_num)).mpr (by omega))
      have hdiv : n / 10 < n := Nat.div_lt_self (by omega) (by omega)
      have hf : n / 10 < f := by omega
      simp only [Nat.toDigitsCore, h0, if_false]
      rw [ih (n / 10) _ hf]
      rw [natDigits_ge (show ¬n < 10 by omega)]
      simp

theorem repr_data (n : Nat) : (Nat.repr n).data = natDigits n := by
  show (Nat.toDigits 10 n).asString.data = natDigits n
  rw [Nat.toDigits, toDigitsCore_eq (n + 1) n [] (Nat.lt_succ_self n)]
  show natDigits n ++ [] = natDigits n
  simp

theorem natDigits_ne_nil (n : Nat) : natDigits n ≠ [] := by
  rw [natDigits]
  split <;> simp

theorem digitChar_inj :
    ∀ a, a < 10 → ∀ b, b < 10 → Nat.digitChar a = Nat.digitChar b → a = b := by
  decide

theorem digitChar_isDigit : ∀ a, a < 10 → (Nat.digitChar a).isDigit = true := by
  decide

theorem natDigits_isDigit : ∀ (n : Nat), ∀ c ∈ natDigits n, c.isDigit = true := by
  intro n
  induction n using Nat.strong_induction_on with
  | _ n ih =>
    intro c hc
    rw [natDigits] at hc
    by_cases hn : n < 10
    · simp only [hn, dite_true, List.mem_singleton] at hc
      subst hc
      exact digitChar_isDigit n hn
    · simp only [hn, dite_false, List.mem_append, List.mem_singleton] at hc
      rcases hc with hc | hc
      · exact ih (n / 10) (Nat.div_lt_self (by omega) (by omega)) c hc
      · subst hc
        exact digitChar_isDigit _ (Nat.mod_lt _ (by omega))

theorem natDigits_inj : ∀ (m n : Nat), natDigits m = natDigits n → m = n := by
  intro m
  induction m using Nat.strong_induction_on with
  | _ m ih =>
    intro n h
    by_cases hm : m < 10 <;> by_cases hn : n < 10
    · rw [natDigits_lt hm, natDigits_lt hn] at h
      simp only [List.cons.injEq, and_true] at h
      exact digitChar_inj m hm n hn h
    · exfalso
      rw [natDigits_lt hm, natDigits_ge hn] at h
      have hlen := congrArg List.length h
      simp only [List.length_singleton, List.length_append] at hlen
      have hpos : 0 < (natDigits (n / 10)).length :=
        List.length_pos.mpr (natDigits_ne_nil (n / 10))
      omega
    · exfalso
      rw [natDigits_ge hm, natDigits_lt hn] at h
      have hlen := congrArg List.length h
      simp only [List.length_singleton, List.length_append] at hlen
      have hpos : 0 < (natDigits (m / 10)).length :=
        List.length_pos.mpr (natDigits_ne_nil (m / 10))
      omega
    · rw [natDigits_ge hm, natDigits_ge hn] at h
      have hlen : (natDigits (m / 10)).length = (natDigits (n / 10)).length := by
        have := congrArg List.length h
        simp only [List.length_append, List.length_singleton] at this
        omega
      obtain ⟨h1, h2⟩ := List.append_inj h hlen
      simp only [List.cons.injEq, and_true] at h2
      have e1 : m / 10 = n / 10 :=
        ih (m / 10) (Nat.div_lt_self (by omega) (by omega)) (n / 10) h1
      have e2 : m % 10 = n % 10 :=
        digitChar_inj _ (Nat.mod_lt _ (by omega)) _ (Nat.mod_lt _ (by omega)) h2
      omega

theorem repr_inj {m n : Nat} (h : Nat.repr m = Nat.repr n) : m = n :=
  natDigits_inj m n (by rw [← repr_data, ← repr_data, h])

/-- Splitting at a separator character that cannot occur in the two digit-only
parts is unambiguous. -/
theorem append_sep_inj :
    ∀ (a b x y : List Char),
    (∀ c ∈ a, c.isDigit = true) → (∀ c ∈ b, c.isDigit = true) →
    a ++ '-' :: x = b ++ '-' :: y → a = b ∧ x = y := by
  intro a
  induction a with
  | nil =>
    intro b x y _ hb h
    rcases b with _ | ⟨c, b1⟩
    · simp only [List.nil_append, List.cons.injEq] at h
      exact ⟨rfl, h.2⟩
    · exfalso
      simp only [List.nil_append, List.cons_append, List.cons.injEq] at h
      have hd := hb c (List.mem_cons_self _ _)
      rw [← h.1] at hd
      exact absurd hd (by decide)
  | cons d a1 ih =>
    intro b x y ha hb h
    rcases b with _ | ⟨c, b1⟩
    · exfalso
      simp only [List.nil_append, List.cons_append, List.cons.injEq] at h
      have hd := ha d (List.mem_cons_self _ _)
      rw [h.1] at hd
      exact absurd hd (by decide)
    · simp only [List.cons_append, List.cons.injEq] at h
      obtain ⟨rfl, h2⟩ := h
      obtain ⟨e1, e2⟩ := ih b1 x y
        (fun c2 hc2 => ha c2 (List.mem_cons_of_mem _ hc2))
        (fun c2 hc2 => hb c2 (List.mem_cons_of_mem _ hc2)) h2
      exact ⟨by rw [e1], e2⟩

/-! ### Distinctness of the generated `stableKey` strings -/

theorem strAppend_assoc (s t u : String) : s ++ t ++ u = s ++ (t ++ u) := by
  apply String.ext
  simp [List.append_assoc]

theorem key1_ne (p : String) {m n2 : Nat} (hmn : m ≠ n2) :
    p ++ Nat.repr m ≠ p ++ Nat.repr n2 := by
  intro h
  apply hmn
  apply natDigits_inj
  have hd := congrArg String.data h
  rw [String.data_append, String.data_append, repr_data, repr_data] at hd
  exact List.append_cancel_left hd

theorem keyM_inj {i1 j1 i2 j2 : Nat}
    (h : "match-" ++ Nat.repr i1 ++ "-" ++ Nat.repr j1 =
      "match-" ++ Nat.repr i2 ++ "-" ++ Nat.repr j2) : i1 = i2 ∧ j1 = j2 := by
  have hd := congrArg String.data h
  simp only [String.data_append, repr_data, List.append_assoc] at hd
  have hd2 := List.append_cancel_left hd
  simp only [List.cons_append, List.nil_append] at hd2
  obtain ⟨e1, e2⟩ :=
    append_sep_inj _ _ _ _ (natDigits_isDigit i1) (natDigits_isDigit i2) hd2
  exact ⟨natDigits_inj _ _ e1, natDigits_inj _ _ e2⟩

theorem key_head_ne (p q x y : String) (cp cq : Char) (pd qd : List Char)
    (hp : p.data = cp :: pd) (hq : q.data = cq :: qd) (hc : cp ≠ cq) :
    p ++ x ≠ q ++ y := by
  intro h
  have hd := congrArg String.data h
  rw [String.data_append, String.data_append, hp, hq] at hd
  simp only [List.cons_append, List.cons.injEq] at hd
  exact hc hd.1

theorem key_ed_ne (x y : String) : "orig-err-" ++ x ≠ "orig-del-" ++ y := by
  intro h
  have hd := congrArg String.data h
  rw [String.data_append, String.data_append,
    show ("orig-err-" : String).data = ['o','r','i','g','-','e','r','r','-'] from rfl,
    show ("orig-del-" : String).data = ['o','r','i','g','-','d','e','l','-'] from rfl] at hd
  simp only [List.cons_append, List.cons.injEq] at hd
  exact absurd hd.2.2.2.2.2.1 (by decide)

theorem key_fa_ne (x y : String) : "corr-fix-" ++ x ≠ "corr-add-" ++ y := by
  intro h
  have hd := congrArg String.data h
  rw [String.data_append, String.data_append,
    show ("corr-fix-" : String).data = ['c','o','r','r','-','f','i','x','-'] from rfl,
    show ("corr-add-" : String).data = ['c','o','r','r','-','a','d','d','-'] from rfl] at hd
  simp only [List.cons_append, List.cons.injEq] at hd
  exact absurd hd.2.2.2.2.2.1 (by decide)

theorem origKey_ne_of_idx :
    ∀ (a b : Op) (sa sb : Seg),
    origNode a = some sa → origNode b = some sb →
    (∀ ia ib, origI a = some ia → origI b = some ib → ia ≠ ib) →
    sa.key ≠ sb.key := by
  intro a b sa sb ha hb hne
  cases a with
  | ins j1 t1 => exact absurd ha (by simp [origNode])
  | wsC j1 t1 => exact absurd ha (by simp [origNode])
  | matchTok i1 j1 t1 =>
    simp only [origNode, Option.some.injEq] at ha
    subst ha
    cases b with
    | ins j2 t2 => exact absurd hb (by simp [origNode])
    | wsC j2 t2 => exact absurd hb (by simp [origNode])
    | matchTok i2 j2 t2 =>
      simp only [origNode, Option.some.injEq] at hb
      subst hb
      intro hkey
      exact hne i1 i2 rfl rfl (keyM_inj hkey).1
    | sub i2 j2 o2 c2 =>
      simp only [origNode, Option.some.injEq] at hb
      subst hb
      show "match-" ++ Nat.repr i1 ++ "-" ++ Nat.repr j1 ≠ "orig-err-" ++ Nat.repr i2
      rw [strAppend_assoc, strAppend_assoc]
      exact key_head_ne "match-" "orig-err-" _ _ 'm' 'o' ['a','t','c','h','-']
        ['r','i','g','-','e','r','r','-'] rfl rfl (by decide)
    | del i2 t2 =>
      simp only [origNode, Option.some.injEq] at hb
      subst hb
      show "match-" ++ Nat.repr i1 ++ "-" ++ Nat.repr j1 ≠ "orig-del-" ++ Nat.repr i2
      rw [strAppend_assoc, strAppend_assoc]
      exact key_head_ne "match-" "orig-del-" _ _ 'm' 'o' ['a','t','c','h','-']
        ['r','i','g','-','d','e','l','-'] rfl rfl (by decide)
    | wsO i2 t2 =>
      simp only [origNode, Option.some.injEq] at hb
      subst hb
      show "match-" ++ Nat.repr i1 ++ "-" ++ Nat.repr j1 ≠ "ws-o-" ++ Nat.repr i2
      rw [strAppend_assoc, strAppend_assoc]
      exact key_head_ne "match-" "ws-o-" _ _ 'm' 'w' ['a','t','c','h','-']
        ['s','-','o','-'] rfl rfl (by decide)
  | sub i1 j1 o1 c1 =>
    simp only [origNode, Option.some.injEq] at ha
    subst ha
    cases b with
    | ins j2 t2 => exact absurd hb (by simp [origNode])
    | wsC j2 t2 => exact absurd hb (by simp [origNode])
    | matchTok i2 j2 t2 =>
      simp only [origNode, Option.some.injEq] at hb
      subst hb
      show "orig-err-" ++ Nat.repr i1 ≠ "match-" ++ Nat.repr i2 ++ "-" ++ Nat.repr j2
      rw [strAppend_assoc, strAppend_assoc]
      exact key_head_ne "orig-err-" "match-" _ _ 'o' 'm'
        ['r','i','g','-','e','r','r','-'] ['a','t','c','h','-'] rfl rfl (by decide)
    | sub i2 j2 o2 c2 =>
      simp only [origNode, Option.some.injEq] at hb
      subst hb
      exact key1_ne "orig-err-" (hne i1 i2 rfl rfl)
    | del i2 t2 =>
      simp only [origNode, Option.some.injEq] at hb
      subst hb
      exact key_ed_ne _ _
    | wsO i2 t2 =>
      simp only [origNode, Option.some.injEq] at hb
      subst hb
      exact key_head_ne "orig-err-" "ws-o-" _ _ 'o' 'w'
        ['r','i','g','-','e','r','r','-'] ['s','-','o','-'] rfl rfl (by decide)
  | del i1 t1 =>
    simp only [origNode, Option.some.injEq] at ha
    subst ha
    cases b with
    | ins j2 t2 => exact absurd hb (by simp [origNode])
    | wsC j2 t2 => exact absurd hb (by simp [origNode])
    | matchTok i2 j2 t2 =>
      simp only [origNode, Option.some.injEq] at hb
      subst hb
      show "orig-del-" ++ Nat.repr i1 ≠ "match-" ++ Nat.repr i2 ++ "-" ++ Nat.repr j2
      rw [strAppend_assoc, strAppend_assoc]
      exact key_head_ne "orig-del-" "match-" _ _ 'o' 'm'
        ['r','i','g','-','d','e','l','-'] ['a','t','c','h','-'] rfl rfl (by decide)
    | sub i2 j2 o2 c2 =>
      simp only [origNode, Option.some.injEq] at hb
      subst hb
      intro hkey
      exact key_ed_ne _ _ hkey.symm
    | del i2 t2 =>
      simp only [origNode, Option.some.injEq] at hb
      subst hb
      exact key1_ne "orig-del-" (hne i1 i2 rfl rfl)
    | wsO i2 t2 =>
      simp only [origNode, Option.some.injEq] at hb
      subst hb
      exact key_head_ne "orig-del-" "ws-o-" _ _ 'o' 'w'
        ['r','i','g','-','d','e','l','-'] ['s','-','o','-'] rfl rfl (by decide)
  | wsO i1 t1 =>
    simp only [origNode, Option.some.injEq] at ha
    subst ha
    cases b with
    | ins j2 t2 => exact absurd hb (by simp [origNode])
    | wsC j2 t2 => exact absurd hb (by simp [origNode])
    | matchTok i2 j2 t2 =>
      simp only [origNode, Option.some.injEq] at hb
      subst hb
      show "ws-o-" ++ Nat.repr i1 ≠ "match-" ++ Nat.repr i2 ++ "-" ++ Nat.repr j2
      rw [strAppend_assoc, strAppend_assoc]
      exact key_head_ne "ws-o-" "match-" _ _ 'w' 'm'
        ['s','-','o','-'] ['a','t','c','h','-'] rfl rfl (by decide)
    | sub i2 j2 o2 c2 =>
      simp only [origNode, Option.some.injEq] at hb
      subst hb
      exact key_head_ne "ws-o-" "orig-err-" _ _ 'w' 'o'
        ['s','-','o','-'] ['r','i','g','-','e','r','r','-'] rfl rfl (by decide)
    | del i2 t2 =>
      simp only [origNode, Option.some.injEq] at hb
      subst hb
      exact key_head_ne "ws-o-" "orig-del-" _ _ 'w' 'o'
        ['s','-','o','-'] ['r','i','g','-','d','e','l','-'] rfl rfl (by decide)
    | wsO i2 t2 =>
      simp only [origNode, Option.some.injEq] at hb
      subst hb
      exact key1_ne "ws-o-" (hne i1 i2 rfl rfl)

theorem corrKey_ne_of_idx :
    ∀ (a b : Op) (sa sb : Seg),
    corrNode a = some sa → corrNode b = some sb →
    (∀ ja jb, corrJ a = some ja → corrJ b = some jb → ja ≠ jb) →
    sa.key ≠ sb.key := by
  intro a b sa sb ha hb hne
  cases a with
  | del i1 t1 => exact absurd ha (by simp [corrNode])
  | wsO i1 t1 => exact absurd ha (by simp [corrNode])
  | matchTok i1 j1 t1 =>
    simp only [corrNode, Option.some.injEq] at ha
    subst ha
    cases b with
    | del i2 t2 => exact absurd hb (by simp [corrNode])
    | wsO i2 t2 => exact absurd hb (by simp [corrNode])
    | matchTok i2 j2 t2 =>
      simp only [corrNode, Option.some.injEq] at hb
      subst hb
      intro hkey
      exact hne j1 j2 rfl rfl (keyM_inj hkey).2
    | sub i2 j2 o2 c2 =>
      simp only [corrNode, Option.some.injEq] at hb
      subst hb
      show "match-" ++ Nat.repr i1 ++ "-" ++ Nat.repr j1 ≠ "corr-fix-" ++ Nat.repr j2
      rw [strAppend_assoc, strAppend_assoc]
      exact key_head_ne "match-" "corr-fix-" _ _ 'm' 'c' ['a','t','c','h','-']
        ['o','r','r','-','f','i','x','-'] rfl rfl (by decide)
    | ins j2 t2 =>
      simp only [corrNode, Option.some.injEq] at hb
      subst hb
      show "match-" ++ Nat.repr i1 ++ "-" ++ Nat.repr j1 ≠ "corr-add-" ++ Nat.repr j2
      rw [strAppend_assoc, strAppend_assoc]
      exact key_head_ne "match-" "corr-add-" _ _ 'm' 'c' ['a','t','c','h','-']
        ['o','r','r','-','a','d','d','-'] rfl rfl (by decide)
    | wsC j2 t2 =>
      simp only [corrNode, Option.some.injEq] at hb
      subst hb
      show "match-" ++ Nat.repr i1 ++ "-" ++ Nat.repr j1 ≠ "ws-c-" ++ Nat.repr j2
      rw [strAppend_assoc, strAppend_assoc]
      exact key_head_ne "match-" "ws-c-" _ _ 'm' 'w' ['a','t','c','h','-']
        ['s','-','c','-'] rfl rfl (by decide)
  | sub i1 j1 o1 c1 =>
    simp only [corrNode, Option.some.injEq] at ha
    subst ha
    cases b with
    | del i2 t2 => exact absurd hb (by simp [corrNode])
    | wsO i2 t2 => exact absurd hb (by simp [corrNode])
    | matchTok i2 j2 t2 =>
      simp only [corrNode, Option.some.injEq] at hb
      subst hb
      show "corr-fix-" ++ Nat.repr j1 ≠ "match-" ++ Nat.repr i2 ++ "-" ++ Nat.repr j2
      rw [strAppend_assoc, strAppend_assoc]
      exact key_head_ne "corr-fix-" "match-" _ _ 'c' 'm'
        ['o','r','r','-','f','i','x','-'] ['a','t','c','h','-'] rfl rfl (by decide)
    | sub i2 j2 o2 c2 =>
      simp only [corrNode, Option.some.injEq] at hb
      subst hb
      exact key1_ne "corr-fix-" (hne j1 j2 rfl rfl)
    | ins j2 t2 =>
      simp only [corrNode, Option.some.injEq] at hb
      subst hb
      exact key_fa_ne _ _
    | wsC j2 t2 =>
      simp only [corrNode, Option.some.injEq] at hb
      subst hb
      exact key_head_ne "corr-fix-" "ws-c-" _ _ 'c' 'w'
        ['o','r','r','-','f','i','x','-'] ['s','-','c','-'] rfl rfl (by decide)
  | ins j1 t1 =>
    simp only [corrNode, Option.some.injEq] at ha
    subst ha
    cases b with
    | del i2 t2 => exact absurd hb (by simp [corrNode])
    | wsO i2 t2 => exact absurd hb (by simp [corrNode])
    | matchTok i2 j2 t2 =>
      simp only [corrNode, Option.some.injEq] at hb
      subst hb
      show "corr-add-" ++ Nat.repr j1 ≠ "match-" ++ Nat.repr i2 ++ "-" ++ Nat.repr j2
      rw [strAppend_assoc, strAppend_assoc]
      exact key_head_ne "corr-add-" "match-" _ _ 'c' 'm'
        ['o','r','r','-','a','d','d','-'] ['a','t','c','h','-'] rfl rfl (by decide)
    | sub i2 j2 o2 c2 =>
      simp only [corrNode, Option.some.injEq] at hb
      subst hb
      intro hkey
      exact key_fa_ne _ _ hkey.symm
    | ins j2 t2 =>
      simp only [corrNode, Option.some.injEq] at hb
      subst hb
      exact key1_ne "corr-add-" (hne j1 j2 rfl rfl)
    | wsC j2 t2 =>
      simp only [corrNode, Option.some.injEq] at hb
      subst hb
      exact key_head_ne "corr-add-" "ws-c-" _ _ 'c' 'w'
        ['o','r','r','-','a','d','d','-'] ['s','-','c','-'] rfl rfl (by decide)
  | wsC j1 t1 =>
    simp only [corrNode, Option.some.injEq] at ha
    subst ha
    cases b with
    | del i2 t2 => exact absurd hb (by simp [corrNode])
    | wsO i2 t2 => exact absurd hb (by simp [corrNode])
    | matchTok i2 j2 t2 =>
      simp only [corrNode, Option.some.injEq] at hb
      subst hb
      show "ws-c-" ++ Nat.repr j1 ≠ "match-" ++ Nat.repr i2 ++ "-" ++ Nat.repr j2
      rw [strAppend_assoc, strAppend_assoc]
      exact key_head_ne "ws-c-" "match-" _ _ 'w' 'm'
        ['s','-','c','-'] ['a','t','c','h','-'] rfl rfl (by decide)
    | sub i2 j2 o2 c2 =>
      simp only [corrNode, Option.some.injEq] at hb
      subst hb
      exact key_head_ne "ws-c-" "corr-fix-" _ _ 'w' 'c'
        ['s','-','c','-'] ['o','r','r','-','f','i','x','-'] rfl rfl (by decide)
    | ins j2 t2 =>
      simp only [corrNode, Option.some.injEq] at hb
      subst hb
      exact key_head_ne "ws-c-" "corr-add-" _ _ 'w' 'c'
        ['s','-','c','-'] ['o','r','r','-','a','d','d','-'] rfl rfl (by decide)
    | wsC j2 t2 =>
      simp only [corrNode, Option.some.injEq] at hb
      subst hb
      exact key1_ne "ws-c-" (hne j1 j2 rfl rfl)

theorem origI_none_iff (op : Op) : origI op = none ↔ origNode op = none := by
  cases op <;> simp [origI, origNode]

theorem origI_isSome_of_node {op : Op} {s : Seg} (h : origNode op = some s) :
    ∃ i2, origI op = some i2 := by
  cases op <;> first
    | exact ⟨_, rfl⟩
    | exact absurd h (by simp [origNode])

theorem corrJ_none_iff (op : Op) : corrJ op = none ↔ corrNode op = none := by
  cases op <;> simp [corrJ, corrNode]

theorem corrJ_isSome_of_node {op : Op} {s : Seg} (h : corrNode op = some s) :
    ∃ j2, corrJ op = some j2 := by
  cases op <;> first
    | exact ⟨_, rfl⟩
    | exact absurd h (by simp [corrNode])

theorem origKeys_pairwise :
    ∀ (ops : List Op), (ops.filterMap origI).Pairwise (· < ·) →
    ((ops.filterMap origNode).map Seg.key).Pairwise (· ≠ ·) := by
  intro ops
  induction ops with
  | nil => intro _; simp
  | cons a r ih =>
    intro hp
    rcases hnode : origNode a with _ | sa
    · have hidx : origI a = none := (origI_none_iff a).mpr hnode
      rw [List.filterMap_cons_none hidx] at hp
      rw [List.filterMap_cons_none hnode]
      exact ih hp
    · obtain ⟨ia, hia⟩ := origI_isSome_of_node hnode
      rw [List.filterMap_cons_some hia] at hp
      rw [List.filterMap_cons_some hnode, List.map_cons]
      rw [List.pairwise_cons] at hp ⊢
      obtain ⟨hlt, hp2⟩ := hp
      refine ⟨?_, ih hp2⟩
      intro k hk
      rcases List.mem_map.mp hk with ⟨sb, hsb, rfl⟩
      rcases List.mem_filterMap.mp hsb with ⟨b, hbmem, hbnode⟩
      obtain ⟨ib, hib⟩ := origI_isSome_of_node hbnode
      have hord : ia < ib := hlt ib (List.mem_filterMap.mpr ⟨b, hbmem, hib⟩)
      refine origKey_ne_of_idx a b sa sb hnode hbnode ?_
      intro ia2 ib2 h1 h2
      have e1 : ia = ia2 := by rw [hia] at h1; exact Option.some.inj h1
      have e2 : ib = ib2 := by rw [hib] at h2; exact Option.some.inj h2
      omega

theorem corrKeys_pairwise :
    ∀ (ops : List Op), (ops.filterMap corrJ).Pairwise (· < ·) →
    ((ops.filterMap corrNode).map Seg.key).Pairwise (· ≠ ·) := by
  intro ops
  induction ops with
  | nil => intro _; simp
  | cons a r ih =>
    intro hp
    rcases hnode : corrNode a with _ | sa
    · have hidx : corrJ a = none := (corrJ_none_iff a).mpr hnode
      rw [List.filterMap_cons_none hidx] at hp
      rw [List.filterMap_cons_none hnode]
      exact ih hp
    · obtain ⟨ja, hja⟩ := corrJ_isSome_of_node hnode
      rw [List.filterMap_cons_some hja] at hp
      rw [List.filterMap_cons_some hnode, List.map_cons]
      rw [List.pairwise_cons] at hp ⊢
      obtain ⟨hlt, hp2⟩ := hp
      refine ⟨?_, ih hp2⟩
      intro k hk
      rcases List.mem_map.mp hk with ⟨sb, hsb, rfl⟩
      rcases List.mem_filterMap.mp hsb with ⟨b, hbmem, hbnode⟩
      obtain ⟨jb, hjb⟩ := corrJ_isSome_of_node hbnode
      have hord : ja < jb := hlt jb (List.mem_filterMap.mpr ⟨b, hbmem, hjb⟩)
      refine corrKey_ne_of_idx a b sa sb hnode hbnode ?_
      intro ja2 jb2 h1 h2
      have e1 : ja = ja2 := by rw [hja] at h1; exact Option.some.inj h1
      have e2 : jb = jb2 := by rw [hjb] at h2; exact Option.some.inj h2
      omega

theorem matchBeqSelf : (matchClass == matchClass) = true := by decide

theorem errNotMatch : (errClass == matchClass) = false := by decide

theorem fixNotMatch : (fixClass == matchClass) = false := by decide

theorem emptyNotMatch : (("" : String) == matchClass) = false := by decide

theorem views_match_filter :
    ∀ (ops : List Op),
    (ops.filterMap origNode).filter (fun g => g.cls == matchClass) =
    (ops.filterMap corrNode).filter (fun g => g.cls == matchClass) := by
  intro ops
  induction ops with
  | nil => rfl
  | cons a r ih =>
    cases a with
    | matchTok i j t =>
      rw [List.filterMap_cons_some
          (show origNode (Op.matchTok i j t) = some
            ⟨"match-" ++ Nat.repr i ++ "-" ++ Nat.repr j, matchClass, t⟩ from rfl),
        List.filterMap_cons_some
          (show corrNode (Op.matchTok i j t) = some
            ⟨"match-" ++ Nat.repr i ++ "-" ++ Nat.repr j, matchClass, t⟩ from rfl)]
      simp only [List.filter_cons, matchBeqSelf, if_true]
      rw [ih]
    | sub i j o c =>
      rw [List.filterMap_cons_some
          (show origNode (Op.sub i j o c) = some
            ⟨"orig-err-" ++ Nat.repr i, errClass, o⟩ from rfl),
        List.filterMap_cons_some
          (show corrNode (Op.sub i j o c) = some
            ⟨"corr-fix-" ++ Nat.repr j, fixClass, c⟩ from rfl)]
      simp only [List.filter_cons, errNotMatch, fixNotMatch, Bool.false_eq_true,
        if_false]
      exact ih
    | del i t =>
      rw [List.filterMap_cons_some
          (show origNode (Op.del i t) = some
            ⟨"orig-del-" ++ Nat.repr i, errClass, t⟩ from rfl),
        List.filterMap_cons_none (show corrNode (Op.del i t) = none from rfl)]
      simp only [List.filter_cons, errNotMatch, Bool.false_eq_true, if_false]
      exact ih
    | ins j t =>
      rw [List.filterMap_cons_none (show origNode (Op.ins j t) = none from rfl),
        List.filterMap_cons_some
          (show corrNode (Op.ins j t) = some
            ⟨"corr-add-" ++ Nat.repr j, fixClass, t⟩ from rfl)]
      simp only [List.filter_cons, fixNotMatch, Bool.false_eq_true, if_false]
      exact ih
    | wsO i t =>
      rw [List.filterMap_cons_some
          (show origNode (Op.wsO i t) = some
            ⟨"ws-o-" ++ Nat.repr i, "", t⟩ from rfl),
        List.filterMap_cons_none (show corrNode (Op.wsO i t) = none from rfl)]
      simp only [List.filter_cons, emptyNotMatch, Bool.false_eq_true, if_false]
      exact ih
    | wsC j t =>
      rw [List.filterMap_cons_none (show origNode (Op.wsC j t) = none from rfl),
        List.filterMap_cons_some
          (show corrNode (Op.wsC j t) = some
            ⟨"ws-c-" ++ Nat.repr j, "", t⟩ from rfl)]
      simp only [List.filter_cons, emptyNotMatch, Bool.false_eq_true, if_false]
      exact ih

theorem views_of_all_match :
    ∀ (ops : List Op), ops.all Op.isMatchTok = true →
    ops.filterMap origNode = ops.filterMap corrNode ∧
    (ops.filterMap origNode).all (fun g => g.cls == matchClass) = true := by
  intro ops
  induction ops with
  | nil => intro _; exact ⟨rfl, rfl⟩
  | cons a r ih =>
    intro h
    rw [List.all_cons, Bool.and_eq_true] at h
    obtain ⟨ha, hr⟩ := h
    obtain ⟨e1, e2⟩ := ih hr
    cases a with
    | matchTok i j t =>
      constructor
      · rw [List.filterMap_cons_some
            (show origNode (Op.matchTok i j t) = some
              ⟨"match-" ++ Nat.repr i ++ "-" ++ Nat.repr j, matchClass, t⟩ from rfl),
          List.filterMap_cons_some
            (show corrNode (Op.matchTok i j t) = some
              ⟨"match-" ++ Nat.repr i ++ "-" ++ Nat.repr j, matchClass, t⟩ from rfl),
          e1]
      · rw [List.filterMap_cons_some
            (show origNode (Op.matchTok i j t) = some
              ⟨"match-" ++ Nat.repr i ++ "-" ++ Nat.repr j, matchClass, t⟩ from rfl),
          List.all_cons, e2]
        rfl
    | sub i j o c => exact absurd ha (by simp [Op.isMatchTok])
    | del i t => exact absurd ha (by simp [Op.isMatchTok])
    | ins j t => exact absurd ha (by simp [Op.isMatchTok])
    | wsO i t => exact absurd ha (by simp [Op.isMatchTok])
    | wsC j t => exact absurd ha (by simp [Op.isMatchTok])

theorem origView_nil_of_corrOnly :
    ∀ (ops : List Op), ops.all (fun op => op.isIns || op.isWsC) = true →
    ops.filterMap origNode = [] := by
  intro ops
  induction ops with
  | nil => intro _; rfl
  | cons a r ih =>
    intro h
    rw [List.all_cons, Bool.and_eq_true] at h
    obtain ⟨ha, hr⟩ := h
    cases a with
    | ins j t =>
      rw [List.filterMap_cons_none (show origNode (Op.ins j t) = none from rfl)]
      exact ih hr
    | wsC j t =>
      rw [List.filterMap_cons_none (show origNode (Op.wsC j t) = none from rfl)]
      exact ih hr
    | matchTok i j t => exact absurd ha (by simp [Op.isIns, Op.isWsC])
    | sub i j o c => exact absurd ha (by simp [Op.isIns, Op.isWsC])
    | del i t => exact absurd ha (by simp [Op.isIns, Op.isWsC])
    | wsO i t => exact absurd ha (by simp [Op.isIns, Op.isWsC])

theorem corrView_nil_of_origOnly :
    ∀ (ops : List Op), ops.all (fun op => op.isDel || op.isWsO) = true →
    ops.filterMap corrNode = [] := by
  intro ops
  induction ops with
  | nil => intro _; rfl
  | cons a r ih =>
    intro h
    rw [List.all_cons, Bool.and_eq_true] at h
    obtain ⟨ha, hr⟩ := h
    cases a with
    | del i t =>
      rw [List.filterMap_cons_none (show corrNode (Op.del i t) = none from rfl)]
      exact ih hr
    | wsO i t =>
      rw [List.filterMap_cons_none (show corrNode (Op.wsO i t) = none from rfl)]
      exact ih hr
    | matchTok i j t => exact absurd ha (by simp [Op.isDel, Op.isWsO])
    | sub i j o c => exact absurd ha (by simp [Op.isDel, Op.isWsO])
    | ins j t => exact absurd ha (by simp [Op.isDel, Op.isWsO])
    | wsC j t => exact absurd ha (by simp [Op.isDel, Op.isWsO])

/-! ### Claim theorems -/

theorem getDiffSegments_eq {o r : String} {ops : List Op}
    (h : diffOps o r = some ops) :
    getDiffSegments o r = (ops.filterMap origNode, ops.filterMap corrNode) := by
  simp [getDiffSegments, h]

theorem diffOps_walk {o r : String} {ops : List Op} (h : diffOps o r = some ops) :
    walkFuel ((tokenize o).length + (tokenize r).length + 1)
      (tokenize o) (tokenize r) 0 0 = some ops := by
  simpa [diffOps] using h

/-- C3: tokenization is lossless — concatenating the tokens of `s` in order
reproduces `s` exactly (so every character of `s` lies in exactly one token),
every token is non-empty (the `filter(Boolean)` step), and the empty string
yields the empty token sequence. -/
theorem claimC3_tokenize_lossless :
    (∀ s : String, String.join (tokenize s) = s) ∧
    (∀ s : String, (tokenize s).all (fun t => !(t == "")) = true) ∧
    tokenize "" = [] := by
  refine ⟨tokenize_join, ?_, rfl⟩
  intro s
  rw [List.all_eq_true]
  intro t ht
  simpa using tokenize_ne_empty s t ht

/-- C2: reconstruction — the texts of the original-side segments (matches,
substitution originals, deletions and pass-through whitespace), in output
order, are exactly the token sequence of the original string, and their
concatenation is the original string itself; symmetrically for the
corrected side.  Output order mirrors left-to-right reading order because the
equality is between ordered lists. -/
theorem claimC2_reconstruction :
    ∀ (o r : String),
    (getDiffSegments o r).1.map Seg.text = tokenize o ∧
    String.join ((getDiffSegments o r).1.map Seg.text) = o ∧
    (getDiffSegments o r).2.map Seg.text = tokenize r ∧
    String.join ((getDiffSegments o r).2.map Seg.text) = r := by
  intro o r
  obtain ⟨ops, hops⟩ := Option.isSome_iff_exists.mp (diffOps_isSome o r)
  have hw := diffOps_walk hops
  rw [getDiffSegments_eq hops]
  have e1 := walk_origTexts _ _ _ _ _ ops hw
  have e2 := walk_corrTexts _ _ _ _ _ ops hw
  exact ⟨e1, by rw [e1]; exact tokenize_join o, e2, by rw [e2]; exact tokenize_join r⟩

/-- C6: identity — diffing a string against itself produces only match
operations; both segment lists are the same list, and every segment carries
the `Unchanged` (matched) style. -/
theorem claimC6_identity :
    ∀ s : String,
    ((diffOps s s).getD []).all Op.isMatchTok = true ∧
    (getDiffSegments s s).1 = (getDiffSegments s s).2 ∧
    (getDiffSegments s s).1.all (fun g => g.cls == matchClass) = true := by
  intro s
  obtain ⟨ops, hops⟩ := Option.isSome_iff_exists.mp (diffOps_isSome s s)
  have hw := diffOps_walk hops
  have hall := walk_id _ _ _ _ ops hw
  obtain ⟨e1, e2⟩ := views_of_all_match ops hall
  rw [getDiffSegments_eq hops, hops]
  exact ⟨by simpa using hall, e1, e2⟩

/-- C7: empty sides — diffing the empty string against `r` emits only
corrected-side operations (content additions plus pass-through whitespace, the
corrected-only material) covering every token of `r`, and the original-side
segment list is empty; symmetrically for diffing `o` against the empty
string. -/
theorem claimC7_empty_input :
    (∀ r : String,
      (getDiffSegments "" r).1 = [] ∧
      (getDiffSegments "" r).2.map Seg.text = tokenize r ∧
      ((diffOps "" r).getD []).all (fun op => op.isIns || op.isWsC) = true) ∧
    (∀ o : String,
      (getDiffSegments o "").2 = [] ∧
      (getDiffSegments o "").1.map Seg.text = tokenize o ∧
      ((diffOps o "").getD []).all (fun op => op.isDel || op.isWsO) = true) := by
  constructor
  · intro r
    obtain ⟨ops, hops⟩ := Option.isSome_iff_exists.mp (diffOps_isSome "" r)
    have hw := diffOps_walk hops
    rw [show tokenize "" = [] from rfl] at hw
    have hall := walk_emptyO _ _ _ _ ops hw
    rw [getDiffSegments_eq hops, hops]
    exact ⟨origView_nil_of_corrOnly ops hall,
      walk_corrTexts _ _ _ _ _ ops hw, by simpa using hall⟩
  · intro o
    obtain ⟨ops, hops⟩ := Option.isSome_iff_exists.mp (diffOps_isSome o "")
    have hw := diffOps_walk hops
    rw [show tokenize "" = [] from rfl] at hw
    have hall := walk_emptyC _ _ _ _ ops hw
    rw [getDiffSegments_eq hops, hops]
    exact ⟨corrView_nil_of_origOnly ops hall,
      walk_origTexts _ _ _ _ _ ops hw, by simpa using hall⟩

/-- C10: termination — on every pair of inputs the loop finishes within
`|tokensO| + |tokensC|` iterations (the fuel budget of `diffOps`), because
tokenizer tokens are non-empty and then every reachable branch of the loop
body advances at least one of the two indices. -/
theorem claimC10_termination :
    ∀ (o c : String), (diffOps o c).isSome = true :=
  fun o c => diffOps_isSome o c

/-- C9: purity and determinism — the result of `getDiffSegments` is a function
of its two string arguments alone: any two invocations on equal inputs return
equal outputs.  In this embedding the computation is a pure function (it reads
and writes no state outside its arguments), so independence of invocations is
definitional and equality of results on equal inputs is its observable
content. -/
theorem claimC9_purity :
    ∀ (o c o2 c2 : String), o = o2 → c = c2 →
    getDiffSegments o c = getDiffSegments o2 c2 := by
  intro o c o2 c2 ho hc
  rw [ho, hc]

theorem claimC9_purity_witness :
    getDiffSegments "a b" "a c" = getDiffSegments "a b" "a c" :=
  claimC9_purity "a b" "a c" "a b" "a c" rfl rfl

/-- C4: whitespace is never substituted — every Substitute operation pairs two
tokens that both contain a non-whitespace character (so no whitespace token is
ever part of a Substitute; whitespace is matched only via the exact-equality
branch); on the spec scenario `("a  b", "a b")` the differing whitespace runs
come out as a pass-through Delete/Insert pair of whitespace segments, not as a
Substitute. -/
theorem claimC4_ws_not_substituted :
    (∀ (o c : String), ((diffOps o c).getD []).all subTokensOk = true) ∧
    (diffOps "a  b" "a b").getD [] =
      [Op.matchTok 0 0 "a", Op.wsO 1 "  ", Op.wsC 1 " ", Op.matchTok 2 2 "b"] := by
  constructor
  · intro o c
    obtain ⟨ops, hops⟩ := Option.isSome_iff_exists.mp (diffOps_isSome o c)
    have hw := diffOps_walk hops
    rw [hops]
    simpa using walk_subOk _ _ _ _ _ ops hw
  · decide

/-- C1, counterexample: on `("I like tea", "I really like tea")` the diff does
contain a Substitute operation, contradicting the claim that no Substitute
appears (and hence also the claimed minimality of non-Match operations). -/
theorem claimC1_counterexample :
    ((diffOps "I like tea" "I really like tea").getD []).any Op.isSub = true := by
  decide

/-- C1, amended: the diff is a greedy positional scan, not a minimum-edit
alignment; on `("I like tea", "I really like tea")` it emits
Substitute("like","really") and Substitute("tea","like") followed by
insertions of " " and "tea", instead of a single Insert of "really" with
surrounding whitespace. -/
theorem claimC1_amended :
    diffOps "I like tea" "I really like tea" =
      some [Op.matchTok 0 0 "I", Op.matchTok 1 1 " ", Op.sub 2 2 "like" "really",
        Op.matchTok 3 3 " ", Op.sub 4 4 "tea" "like", Op.wsC 5 " ",
        Op.ins 6 "tea"] := by
  decide

/-- C5, counterexample: on `("x\t", " y")` the trace is a Delete of the word
"x", two pass-through whitespace operations, then an Insert of the word "y" —
a Delete followed, across only whitespace, by an Insert with no intervening
Match — and no Substitute operation is produced, contradicting the claimed
re-classification. -/
theorem claimC5_counterexample :
    diffOps "x\t" " y" =
      some [Op.del 0 "x", Op.wsO 1 "\t", Op.wsC 0 " ", Op.ins 1 "y"] ∧
    ((diffOps "x\t" " y").getD []).any Op.isSub = false := by
  exact ⟨by decide, by decide⟩

/-- C5, amended: the code performs no Delete+Insert re-classification pass;
instead, a Delete is never emitted immediately before an Insert (a
word-for-word mismatch reached at the same scan position is emitted directly
as a single Substitute, as on `("x", "y")`), while a Delete separated from an
Insert by whitespace operations remains a Delete+Insert pair. -/
theorem claimC5_amended :
    (∀ (o c : String), noDelIns ((diffOps o c).getD []) = true) ∧
    diffOps "x" "y" = some [Op.sub 0 0 "x" "y"] := by
  constructor
  · intro o c
    obtain ⟨ops, hops⟩ := Option.isSome_iff_exists.mp (diffOps_isSome o c)
    have hw := diffOps_walk hops
    rw [hops]
    exact (walk_noDelIns _ _ _ _ _ ops hw).1
  · decide

/-- C8: stable keys — within one call the keys of the original segment list
are pairwise distinct, the keys of the corrected segment list are pairwise
distinct, and the matched segments (the only ones styled `Unchanged`) of the
two lists coincide, node for node, key included.  Determinism of the keys is
definitional: `getDiffSegments` is a pure function of its inputs. -/
theorem claimC8_stable_keys :
    ∀ (o c : String),
    ((getDiffSegments o c).1.map Seg.key).Nodup ∧
    ((getDiffSegments o c).2.map Seg.key).Nodup ∧
    (getDiffSegments o c).1.filter (fun g => g.cls == matchClass) =
      (getDiffSegments o c).2.filter (fun g => g.cls == matchClass) := by
  intro o c
  obtain ⟨ops, hops⟩ := Option.isSome_iff_exists.mp (diffOps_isSome o c)
  have hw := diffOps_walk hops
  rw [getDiffSegments_eq hops]
  exact ⟨origKeys_pairwise ops (walk_origI _ _ _ _ _ ops hw).1,
    corrKeys_pairwise ops (walk_corrJ _ _ _ _ _ ops hw).1,
    views_match_filter ops⟩

end GrammarScan
